import Mathlib

/-!
Shallow embedding of the `asyncapi-rust` metadata-to-document compiler
(crates `asyncapi-rust-codegen` and `asyncapi-rust-models`).

The proc-macro pipeline is modelled as pure functions:
  * `extract_server`, `extract_channel`, `extract_operation`, … mirror
    `asyncapi_spec_attrs.rs` (the Metadata Extractor);
  * `asyncapi_messages`, `msgPayload`, `resolveContentType` mirror the code
    generated by `derive_to_asyncapi_message` in `lib.rs` (Schema Synthesizer);
  * `derive_asyncapi` and its helpers mirror the code generated by the
    `AsyncApi` derive in `lib.rs` (Document Assembler).

Rust `HashMap`s are modelled as association lists with overwriting insert
(`mapInsert`); being hash maps they carry no entry order, so every statement
about a map goes through its lookup function `lookupMap`.  `serde_json::Value`
is modelled by `Json`; the `Schema` payloads produced by deserializing a JSON
tree are kept in their `Json` form, since all claims concern which JSON
fragment is selected, never its re-typed representation.  Compile failures
(`syn::Error::to_compile_error`) are modelled by `Except` with a list of
diagnostics, each carrying the span symbol and the message text.
-/

/-- JSON values (`serde_json::Value`); numbers are irrelevant to every claim
and are kept as integers. -/
inductive Json where
  | null : Json
  | bool (b : Bool) : Json
  | num (n : Int) : Json
  | str (s : String) : Json
  | arr (elems : List Json) : Json
  | obj (fields : List (String × Json)) : Json

/-- Association-list map with `HashMap::insert` semantics: an existing binding
of the key is overwritten, otherwise the binding is appended. -/
def mapInsert {α : Type} : List (String × α) → String → α → List (String × α)
  | [], k, v => [(k, v)]
  | (k', v') :: rest, k, v =>
      if k' == k then (k, v) :: rest else (k', v') :: mapInsert rest k v

/-- Association-list map lookup (`HashMap::get`). -/
def lookupMap {α : Type} : List (String × α) → String → Option α
  | [], _ => none
  | (k', v) :: rest, k => if k' == k then some v else lookupMap rest k

/-- `serde_json::Value::get` on objects. -/
def Json.get : Json → String → Option Json
  | .obj fields, k => lookupMap fields k
  | _, _ => none

/-- `serde_json::Value::as_array`. -/
def Json.asArr : Json → Option (List Json)
  | .arr elems => some elems
  | _ => none

/-- `serde_json::Value::as_str`. -/
def Json.asStr : Json → Option String
  | .str s => some s
  | _ => none

/-- `Info` (asyncapi-rust-models/src/lib.rs). -/
structure Info where
  title : String
  version : String
  description : Option String

/-- `ServerVariable` (asyncapi-rust-models/src/lib.rs). -/
structure ServerVariable where
  description : Option String
  default : Option String
  enum_values : Option (List String)
  examples : Option (List String)

/-- `Server` (asyncapi-rust-models/src/lib.rs). -/
structure Server where
  host : String
  protocol : String
  pathname : Option String
  description : Option String
  «variables» : Option (List (String × ServerVariable))

/-- `Schema` and `SchemaObject` (asyncapi-rust-models/src/lib.rs), merged into
one inductive because Lean structures cannot be mutually recursive with an
inductive.  The `object` constructor carries the `SchemaObject` fields in
declaration order. -/
inductive Schema where
  | reference (reference : String) : Schema
  | object
      (schema_type : Option Json)
      (properties : Option (List (String × Schema)))
      (required : Option (List String))
      (description : Option String)
      (title : Option String)
      (enum_values : Option (List Json))
      (const_value : Option Json)
      (items : Option Schema)
      (additional_properties : Option Schema)
      (one_of : Option (List Schema))
      (any_of : Option (List Schema))
      (all_of : Option (List Schema))
      (additional : List (String × Json)) : Schema

/-- `Message` (asyncapi-rust-models/src/lib.rs); the payload keeps the JSON
tree selected by the generated code (see module comment). -/
structure Message where
  name : Option String
  title : Option String
  summary : Option String
  description : Option String
  content_type : Option String
  payload : Option Json

/-- `MessageRef` (asyncapi-rust-models/src/lib.rs). -/
inductive MessageRef where
  | reference (reference : String) : MessageRef
  | inline (m : Message) : MessageRef

/-- `Parameter` (asyncapi-rust-models/src/lib.rs). -/
structure Parameter where
  description : Option String
  schema : Option Schema

/-- `Channel` (asyncapi-rust-models/src/lib.rs). -/
structure Channel where
  address : Option String
  messages : Option (List (String × MessageRef))
  parameters : Option (List (String × Parameter))

/-- `OperationAction` (asyncapi-rust-models/src/lib.rs). -/
inductive OperationAction where
  | send : OperationAction
  | receive : OperationAction
deriving DecidableEq

/-- `ChannelRef` (asyncapi-rust-models/src/lib.rs). -/
structure ChannelRef where
  reference : String

/-- `Operation` (asyncapi-rust-models/src/lib.rs). -/
structure Operation where
  action : OperationAction
  channel : ChannelRef
  messages : Option (List MessageRef)

/-- `Components` (asyncapi-rust-models/src/lib.rs). -/
structure Components where
  messages : Option (List (String × Message))
  schemas : Option (List (String × Schema))

/-- `AsyncApiSpec` (asyncapi-rust-models/src/lib.rs). -/
structure AsyncApiSpec where
  asyncapi : String
  info : Info
  servers : Option (List (String × Server))
  channels : Option (List (String × Channel))
  operations : Option (List (String × Operation))
  components : Option Components

/-- `ServerVariableMeta` (asyncapi_spec_attrs.rs lines 29-36). -/
structure ServerVariableMeta where
  name : String
  description : Option String
  default : Option String
  enum_values : List String
  examples : List String

/-- `ServerMeta` (asyncapi_spec_attrs.rs lines 18-26). -/
structure ServerMeta where
  name : String
  host : String
  protocol : String
  pathname : Option String
  description : Option String
  «variables» : List ServerVariableMeta

/-- `ParameterMeta` (asyncapi_spec_attrs.rs lines 49-55). -/
structure ParameterMeta where
  name : String
  description : Option String
  schema_type : Option String
  format : Option String

/-- `ChannelMeta` (asyncapi_spec_attrs.rs lines 39-46). -/
structure ChannelMeta where
  name : String
  address : Option String
  description : Option String
  parameters : List ParameterMeta

/-- Modelled from the spec: `OperationMeta` merges the record of
asyncapi_spec_attrs.rs lines 58-65 (name, action, channel, description) with
the `messages` list of declared message-type identifiers required by spec §3
(`OperationMeta: … messages[] (type identifiers)`).  The extractor snapshot
under src does not populate `messages`, but the assembler in lib.rs consumes
`operation.messages`, so the field is taken as part of the record. -/
structure OperationMeta where
  name : String
  action : String
  channel : String
  description : Option String
  messages : List String

/-- `AsyncApiSpecMeta` (asyncapi_spec_attrs.rs lines 7-15); message types are
identified by their path strings. -/
structure AsyncApiSpecMeta where
  title : Option String
  version : Option String
  description : Option String
  servers : List ServerMeta
  channels : List ChannelMeta
  operations : List OperationMeta
  message_types : List String

/-- One nested item of an attribute's argument list, as delivered by
`syn`'s `parse_nested_meta`: a `key = "value"` string field, a
`key = [lit, …]` list field, a nested `key(…)` block, or a bare flag. -/
inductive AttrField where
  | strField (key : String) (value : String) : AttrField
  | listField (key : String) (values : List String) : AttrField
  | nested (key : String) (fields : List AttrField) : AttrField
  | flag (key : String) : AttrField

/-- State of the mutable locals of `extract_server_variable`
(asyncapi_spec_attrs.rs lines 177-215). -/
structure VarState where
  name : Option String := none
  description : Option String := none
  default : Option String := none
  enum_values : List String := []
  examples : List String := []

/-- Loop body of `extract_server_variable` (asyncapi_spec_attrs.rs lines
184-215): each recognized key overwrites the corresponding local. -/
def serverVariableStep (s : VarState) : AttrField → VarState
  | .strField k v =>
      if k == "name" then { s with name := some v }
      else if k == "description" then { s with description := some v }
      else if k == "default" then { s with default := some v }
      else s
  | .listField k vs =>
      if k == "enum_values" then { s with enum_values := vs }
      else if k == "examples" then { s with examples := vs }
      else s
  | _ => s

/-- `extract_server_variable` (asyncapi_spec_attrs.rs lines 177-224): the
record is produced only when `name` was set (`name: name?`). -/
def extract_server_variable (fields : List AttrField) : Option ServerVariableMeta :=
  let s := fields.foldl serverVariableStep {}
  match s.name with
  | some n =>
      some { name := n, description := s.description, default := s.default,
             enum_values := s.enum_values, examples := s.examples }
  | none => none

/-- State of the mutable locals of `extract_server`
(asyncapi_spec_attrs.rs lines 128-133). -/
structure ServerState where
  name : Option String := none
  host : Option String := none
  protocol : Option String := none
  pathname : Option String := none
  description : Option String := none
  «variables» : List ServerVariableMeta := []

/-- Loop body of `extract_server` (asyncapi_spec_attrs.rs lines 135-163);
a nested `variable(…)` block contributes one record only when its own
extraction succeeds. -/
def serverStep (s : ServerState) : AttrField → ServerState
  | .strField k v =>
      if k == "name" then { s with name := some v }
      else if k == "host" then { s with host := some v }
      else if k == "protocol" then { s with protocol := some v }
      else if k == "pathname" then { s with pathname := some v }
      else if k == "description" then { s with description := some v }
      else s
  | .nested k fs =>
      if k == "variable" then
        match extract_server_variable fs with
        | some var => { s with «variables» := s.«variables» ++ [var] }
        | none => s
      else s
  | _ => s

/-- `extract_server` (asyncapi_spec_attrs.rs lines 127-174): requires
`name`, `host` and `protocol` (`name?`, `host?`, `protocol?`), otherwise the
whole server block yields no record. -/
def extract_server (fields : List AttrField) : Option ServerMeta :=
  let s := fields.foldl serverStep {}
  match s.name, s.host, s.protocol with
  | some n, some h, some p =>
      some { name := n, host := h, protocol := p, pathname := s.pathname,
             description := s.description, «variables» := s.«variables» }
  | _, _, _ => none

/-- State of the mutable locals of `extract_channel_parameter`
(asyncapi_spec_attrs.rs lines 266-269). -/
structure ParamState where
  name : Option String := none
  description : Option String := none
  schema_type : Option String := none
  format : Option String := none

/-- Loop body of `extract_channel_parameter`
(asyncapi_spec_attrs.rs lines 271-290). -/
def channelParameterStep (s : ParamState) : AttrField → ParamState
  | .strField k v =>
      if k == "name" then { s with name := some v }
      else if k == "description" then { s with description := some v }
      else if k == "schema_type" then { s with schema_type := some v }
      else if k == "format" then { s with format := some v }
      else s
  | _ => s

/-- `extract_channel_parameter` (asyncapi_spec_attrs.rs lines 265-298):
requires `name`. -/
def extract_channel_parameter (fields : List AttrField) : Option ParameterMeta :=
  let s := fields.foldl channelParameterStep {}
  match s.name with
  | some n =>
      some { name := n, description := s.description,
             schema_type := s.schema_type, format := s.format }
  | none => none

/-- State of the mutable locals of `extract_channel`
(asyncapi_spec_attrs.rs lines 228-231). -/
structure ChannelState where
  name : Option String := none
  address : Option String := none
  description : Option String := none
  parameters : List ParameterMeta := []

/-- Loop body of `extract_channel` (asyncapi_spec_attrs.rs lines 233-253). -/
def channelStep (s : ChannelState) : AttrField → ChannelState
  | .strField k v =>
      if k == "name" then { s with name := some v }
      else if k == "address" then { s with address := some v }
      else if k == "description" then { s with description := some v }
      else s
  | .nested k fs =>
      if k == "parameter" then
        match extract_channel_parameter fs with
        | some p => { s with parameters := s.parameters ++ [p] }
        | none => s
      else s
  | _ => s

/-- `extract_channel` (asyncapi_spec_attrs.rs lines 227-262): requires
`name`. -/
def extract_channel (fields : List AttrField) : Option ChannelMeta :=
  let s := fields.foldl channelStep {}
  match s.name with
  | some n =>
      some { name := n, address := s.address, description := s.description,
             parameters := s.parameters }
  | none => none

/-- State of the mutable locals of `extract_operation`
(asyncapi_spec_attrs.rs lines 302-305). -/
structure OperationState where
  name : Option String := none
  action : Option String := none
  channel : Option String := none
  description : Option String := none

/-- Loop body of `extract_operation` (asyncapi_spec_attrs.rs lines 307-326).
The snapshot recognizes no `messages` key, so the produced record's
`messages` list is always empty here. -/
def operationStep (s : OperationState) : AttrField → OperationState
  | .strField k v =>
      if k == "name" then { s with name := some v }
      else if k == "action" then { s with action := some v }
      else if k == "channel" then { s with channel := some v }
      else if k == "description" then { s with description := some v }
      else s
  | _ => s

/-- `extract_operation` (asyncapi_spec_attrs.rs lines 301-335): requires
`name`, `action` and `channel`. -/
def extract_operation (fields : List AttrField) : Option OperationMeta :=
  let s := fields.foldl operationStep {}
  match s.name, s.action, s.channel with
  | some n, some a, some c =>
      some { name := n, action := a, channel := c,
             description := s.description, messages := [] }
  | _, _, _ => none

/-- One raw attribute on the declaration deriving `AsyncApi`, dispatched by
path as in `extract_asyncapi_spec_meta` (asyncapi_spec_attrs.rs lines
71-111). -/
inductive Attr where
  | asyncapi (fields : List AttrField) : Attr
  | asyncapi_server (fields : List AttrField) : Attr
  | asyncapi_channel (fields : List AttrField) : Attr
  | asyncapi_operation (fields : List AttrField) : Attr
  | asyncapi_messages (types : List String) : Attr
  | other : Attr

/-- Handling of one `#[asyncapi(…)]` spec-level attribute
(asyncapi_spec_attrs.rs lines 74-89). -/
def specAttrStep (m : AsyncApiSpecMeta) : AttrField → AsyncApiSpecMeta
  | .strField k v =>
      if k == "title" then { m with title := some v }
      else if k == "version" then { m with version := some v }
      else if k == "description" then { m with description := some v }
      else m
  | _ => m

/-- `extract_asyncapi_spec_meta` (asyncapi_spec_attrs.rs lines 68-114). -/
def extract_asyncapi_spec_meta (attrs : List Attr) : AsyncApiSpecMeta :=
  attrs.foldl
    (fun m attr =>
      match attr with
      | .asyncapi fields => fields.foldl specAttrStep m
      | .asyncapi_server fields =>
          match extract_server fields with
          | some s => { m with servers := m.servers ++ [s] }
          | none => m
      | .asyncapi_channel fields =>
          match extract_channel fields with
          | some c => { m with channels := m.channels ++ [c] }
          | none => m
      | .asyncapi_operation fields =>
          match extract_operation fields with
          | some o => { m with operations := m.operations ++ [o] }
          | none => m
      | .asyncapi_messages types =>
          { m with message_types := m.message_types ++ types }
      | .other => m)
    { title := none, version := none, description := none,
      servers := [], channels := [], operations := [], message_types := [] }

/-- `MessageMeta` as collected by `derive_to_asyncapi_message`
(lib.rs lines 220-227): one record per enum variant (name = serde rename or
variant identifier) or a single record for a struct (name = type name). -/
structure MessageMeta where
  name : String
  summary : Option String
  description : Option String
  title : Option String
  content_type : Option String
  triggers_binary : Bool

/-- Everything the generated methods of one `ToAsyncApiMessage` type depend
on: its message metadata list and the `schemars` structural schema of the
type, already serialized to JSON (`schema_json`, lib.rs lines 350-354). -/
structure TypeInfo where
  metas : List MessageMeta
  schema_json : Json

/-- The generated `asyncapi_message_names` (lib.rs lines 327-329): the listed
message names in declaration order. -/
def asyncapi_message_names (info : TypeInfo) : List String :=
  info.metas.map (fun m => m.name)

/-- Content-type resolution of the generated code (lib.rs lines 306-314):
explicit `content_type` wins, else `triggers_binary` selects the binary
default, else the JSON default. -/
def resolveContentType (content_type : Option String) (triggers_binary : Bool) :
    Option String :=
  match content_type with
  | some ct => some ct
  | none =>
      if triggers_binary then some "application/octet-stream"
      else some "application/json"

/-- The discriminator constant of one `oneOf` branch: the generated code
reads `variant.properties.type.const` and keeps it only when it is a string
(lib.rs lines 362-381). -/
def discriminatorConst (variant : Json) : Option String :=
  match variant.get "properties" with
  | some props =>
      match props.get "type" with
      | some typeProp =>
          match typeProp.get "const" with
          | some constVal => constVal.asStr
          | none => none
      | none => none
  | none => none

/-- The variant-name-to-branch map built by the generated code (lib.rs lines
360-382): branches without a string discriminator constant are skipped;
`HashMap::insert` lets a later branch with the same constant overwrite an
earlier one. -/
def variantMapOf (variants : List Json) : List (String × Json) :=
  variants.foldl
    (fun m variant =>
      match discriminatorConst variant with
      | some variantName => mapInsert m variantName variant
      | none => m)
    []

/-- The `variant_schemas` value of the generated code (lib.rs lines 357-390):
present exactly when the serialized schema has a `oneOf` field that is an
array. -/
def variantSchemas (schema_json : Json) : Option (List (String × Json)) :=
  match schema_json.get "oneOf" with
  | some oneOfVal =>
      match oneOfVal.asArr with
      | some variants => some (variantMapOf variants)
      | none => none
  | none => none

/-- The `oneOf` branch list of a schema, when present as an array. -/
def oneOfVariants (schema_json : Json) : Option (List Json) :=
  (schema_json.get "oneOf").bind Json.asArr

/-- Payload selection of the generated code (lib.rs lines 404-412): with a
`oneOf` branch map, look the message name up (absent when no branch matched);
without one, the payload is the whole serialized schema. -/
def msgPayload (schema_json : Json) (msg_name : String) : Option Json :=
  match variantSchemas schema_json with
  | some vm => lookupMap vm msg_name
  | none => some schema_json

/-- The generated `asyncapi_messages` (lib.rs lines 344-425): one `Message`
per metadata record, title defaulting to the message name, content type by
`resolveContentType`, payload by `msgPayload`. -/
def asyncapi_messages (info : TypeInfo) : List Message :=
  info.metas.map
    (fun m =>
      { name := some m.name,
        title := some (m.title.getD m.name),
        summary := m.summary,
        description := m.description,
        content_type := resolveContentType m.content_type m.triggers_binary,
        payload := msgPayload info.schema_json m.name })

/-- A compile diagnostic (`syn::Error`): the identifier it is spanned to and
its message text. -/
structure CompileError where
  span : String
  message : String
deriving DecidableEq

/-- Servers section of `derive_asyncapi` (lib.rs lines 496-586). -/
def assembleServers (servers : List ServerMeta) : Option (List (String × Server)) :=
  if servers.isEmpty then none
  else
    some (servers.foldl
      (fun m s =>
        mapInsert m s.name
          { host := s.host, protocol := s.protocol, pathname := s.pathname,
            description := s.description,
            «variables» :=
              if s.«variables».isEmpty then none
              else
                some (s.«variables».foldl
                  (fun vm v =>
                    mapInsert vm v.name
                      { description := v.description, default := v.default,
                        enum_values :=
                          if v.enum_values.isEmpty then none else some v.enum_values,
                        examples :=
                          if v.examples.isEmpty then none else some v.examples })
                  []) })
      [])

/-- Inline parameter schema of `derive_asyncapi` (lib.rs lines 604-655):
built purely from `schema_type` and `format`. -/
def mkParameter (p : ParameterMeta) : Parameter :=
  { description := p.description,
    schema :=
      match p.schema_type with
      | some st =>
          some (Schema.object (some (Json.str st)) none none none none none none
            none none none none none
            (match p.format with
             | some fmt => [("format", Json.str fmt)]
             | none => []))
      | none => none }

/-- First-occurrence deduplication loop used to model the `HashSet` of message
type names collected per channel (lib.rs lines 677-679).  The set itself is
unordered; all facts proved about the resulting messages map go through
`lookupMap`, which is independent of this iteration order. -/
def dedupFirstGo : List String → List String → List String
  | _, [] => []
  | seen, x :: xs =>
      if seen.contains x then dedupFirstGo seen xs
      else x :: dedupFirstGo (x :: seen) xs

/-- First-occurrence deduplication of a list of type names. -/
def dedupFirst (l : List String) : List String :=
  dedupFirstGo [] l

/-- Channel message propagation of `derive_asyncapi` (lib.rs lines 667-703):
collect the operations whose `channel` equals this channel's name; if there
are none, or none of them lists a message type, the field is `None`;
otherwise every name of every (deduplicated) listed type is inserted as a
component reference keyed by the message name. -/
def channelMessages (ops : List OperationMeta) (env : String → TypeInfo)
    (channelName : String) : Option (List (String × MessageRef)) :=
  let operationsForChannel := ops.filter (fun op => op.channel == channelName)
  if operationsForChannel.isEmpty ||
      operationsForChannel.all (fun op => op.messages.isEmpty) then
    none
  else
    let typeNames := dedupFirst (operationsForChannel.flatMap (fun op => op.messages))
    some (typeNames.foldl
      (fun m typeName =>
        (asyncapi_message_names (env typeName)).foldl
          (fun m msgName =>
            mapInsert m msgName
              (MessageRef.reference ("#/components/messages/" ++ msgName)))
          m)
      [])

/-- One channel of `derive_asyncapi` (lib.rs lines 592-714). -/
def mkChannel (ops : List OperationMeta) (env : String → TypeInfo)
    (ch : ChannelMeta) : Channel :=
  { address := ch.address,
    messages := channelMessages ops env ch.name,
    parameters :=
      if ch.parameters.isEmpty then none
      else
        some (ch.parameters.foldl
          (fun m p => mapInsert m p.name (mkParameter p)) []) }

/-- Channels section of `derive_asyncapi` (lib.rs lines 589-724). -/
def assembleChannels (channels : List ChannelMeta) (ops : List OperationMeta)
    (env : String → TypeInfo) : Option (List (String × Channel)) :=
  if channels.isEmpty then none
  else
    some (channels.foldl
      (fun m ch => mapInsert m ch.name (mkChannel ops env ch)) [])

/-- Operation message references of `derive_asyncapi` (lib.rs lines 749-770):
absent when no message types are listed; otherwise one component reference is
pushed per name of each listed type, types in declaration order, names in the
order the type returns them. -/
def operationMessages (messages : List String) (env : String → TypeInfo) :
    Option (List MessageRef) :=
  if messages.isEmpty then none
  else
    some (messages.foldl
      (fun refs typeName =>
        (asyncapi_message_names (env typeName)).foldl
          (fun refs msgName =>
            refs ++ [MessageRef.reference ("#/components/messages/" ++ msgName)])
          refs)
      [])

/-- One operation of `derive_asyncapi` (lib.rs lines 730-783): the action
string must be exactly `send` or `receive`, anything else is a compile error
spanned to the operation name and quoting the offending value; the channel
name is rewritten into a `#/channels/` reference. -/
def assembleOperation (op : OperationMeta) (env : String → TypeInfo) :
    Except CompileError Operation :=
  if op.action == "send" then
    .ok { action := .send,
          channel := { reference := "#/channels/" ++ op.channel },
          messages := operationMessages op.messages env }
  else if op.action == "receive" then
    .ok { action := .receive,
          channel := { reference := "#/channels/" ++ op.channel },
          messages := operationMessages op.messages env }
  else
    .error { span := op.name,
             message := "Invalid action '" ++ op.action ++
               "', must be 'send' or 'receive'" }

/-- Operations section of `derive_asyncapi` (lib.rs lines 726-793): every
operation is processed; an invalid action replaces that operation's insert
with an embedded compile error (the diagnostics are collected in order),
valid operations are inserted keyed by name. -/
def assembleOperations (ops : List OperationMeta) (env : String → TypeInfo) :
    List CompileError × Option (List (String × Operation)) :=
  if ops.isEmpty then ([], none)
  else
    let res := ops.foldl
      (fun (acc : List CompileError × List (String × Operation)) op =>
        match assembleOperation op env with
        | .ok o => (acc.1, mapInsert acc.2 op.name o)
        | .error e => (acc.1 ++ [e], acc.2))
      ([], [])
    (res.1, some res.2)

/-- Components section of `derive_asyncapi` (lib.rs lines 795-820): every
message of every listed type is inserted keyed by its name (nameless messages
are skipped; a later message with the same name overwrites). -/
def assembleComponents (message_types : List String) (env : String → TypeInfo) :
    Option Components :=
  if message_types.isEmpty then none
  else
    let msgs := message_types.foldl
      (fun m typeName =>
        (asyncapi_messages (env typeName)).foldl
          (fun m msg =>
            match msg.name with
            | some n => mapInsert m n msg
            | none => m)
          m)
      []
    some { messages := if msgs.isEmpty then none else some msgs,
           schemas := none }

/-- `derive_asyncapi` (lib.rs lines 457-846) as a pure compilation function:
the declaring symbol and the extracted metadata, plus the registry of already
compiled `ToAsyncApiMessage` types, are mapped to either the generated
`AsyncApiSpec` or the list of compile diagnostics embedded in the output
token stream (missing title, missing version, invalid operation actions). -/
def derive_asyncapi (symbol : String) (meta : AsyncApiSpecMeta)
    (env : String → TypeInfo) : Except (List CompileError) AsyncApiSpec :=
  match meta.title with
  | none =>
      .error [{ span := symbol,
                message := "AsyncApi requires a title attribute: #[asyncapi(title = \"...\")]" }]
  | some title =>
      match meta.version with
      | none =>
          .error [{ span := symbol,
                    message := "AsyncApi requires a version attribute: #[asyncapi(version = \"...\")]" }]
      | some version =>
          let assembled := assembleOperations meta.operations env
          if assembled.1.isEmpty then
            .ok { asyncapi := "3.0.0",
                  info := { title := title, version := version,
                            description := meta.description },
                  servers := assembleServers meta.servers,
                  channels := assembleChannels meta.channels meta.operations env,
                  operations := assembled.2,
                  components := assembleComponents meta.message_types env }
          else
            .error assembled.1

/-- References emitted by the Assembler itself: channel-message references,
operation channel references and operation message references.  Schema
content inside message payloads comes from the external reflection
collaborator and is not emitted by the Assembler (spec §3). -/
def messageRefStrings : MessageRef → List String
  | .reference r => [r]
  | .inline _ => []

/-- All Assembler-emitted reference strings of a document. -/
def emittedRefs (d : AsyncApiSpec) : List String :=
  (match d.channels with
   | some chs =>
       chs.flatMap (fun kv =>
         match kv.2.messages with
         | some ms => ms.flatMap (fun km => messageRefStrings km.2)
         | none => [])
   | none => []) ++
  (match d.operations with
   | some opsMap =>
       opsMap.flatMap (fun ko =>
         ko.2.channel.reference ::
           (match ko.2.messages with
            | some ms => ms.flatMap messageRefStrings
            | none => []))
   | none => [])

/-- Lookup in the document's channels map. -/
def lookupChannels (d : AsyncApiSpec) (q : String) : Option Channel :=
  match d.channels with
  | some m => lookupMap m q
  | none => none

/-- Lookup in the document's operations map. -/
def lookupOperations (d : AsyncApiSpec) (q : String) : Option Operation :=
  match d.operations with
  | some m => lookupMap m q
  | none => none

theorem lookupMap_mapInsert {α : Type} (m : List (String × α)) (k q : String)
    (v : α) :
    lookupMap (mapInsert m k v) q = if k == q then some v else lookupMap m q := by
  induction m with
  | nil => simp [mapInsert, lookupMap]
  | cons kv rest ih =>
      obtain ⟨k', v'⟩ := kv
      by_cases h1 : k' = k
      · subst h1
        by_cases h2 : k' = q
        · subst h2
          simp [mapInsert, lookupMap]
        · simp [mapInsert, lookupMap, h2]
      · by_cases h2 : k' = q
        · subst h2
          have hkq : ¬ k = k' := fun h => h1 h.symm
          simp [mapInsert, lookupMap, h1, hkq]
        · simp [mapInsert, lookupMap, h1, h2, ih]

theorem mem_mapInsert {α : Type} (m : List (String × α)) (k : String) (v : α)
    (q : String × α) (h : q ∈ mapInsert m k v) : q = (k, v) ∨ q ∈ m := by
  induction m with
  | nil =>
      simp [mapInsert] at h
      exact Or.inl h
  | cons kv rest ih =>
      by_cases hk : kv.1 = k
      · simp [mapInsert, hk] at h
        rcases h with h | h
        · exact Or.inl h
        · exact Or.inr (List.mem_cons_of_mem _ h)
      · simp [mapInsert, hk] at h
        rcases h with h | h
        · exact Or.inr (by simp [h])
        · rcases ih h with h' | h'
          · exact Or.inl h'
          · exact Or.inr (List.mem_cons_of_mem _ h')

theorem lookupMap_mem {α : Type} (m : List (String × α)) (q : String) (v : α)
    (h : lookupMap m q = some v) : (q, v) ∈ m := by
  induction m with
  | nil => simp [lookupMap] at h
  | cons kv rest ih =>
      by_cases hk : kv.1 = q
      · simp [lookupMap, hk] at h
        subst h
        simp [← hk]
      · simp [lookupMap, hk] at h
        exact List.mem_cons_of_mem _ (ih h)

/-- Folding inserts whose value is determined by the key: lookup of the
result depends only on key membership. -/
theorem lookupMap_foldl_selfInsert {α : Type} (ns : List String)
    (f : String → α) (m0 : List (String × α)) (q : String) :
    lookupMap (ns.foldl (fun m n => mapInsert m n (f n)) m0) q =
      if ns.contains q then some (f q) else lookupMap m0 q := by
  induction ns generalizing m0 with
  | nil => simp
  | cons n ns ih =>
      simp only [List.foldl_cons, ih, lookupMap_mapInsert, List.contains_cons]
      by_cases hq : n = q
      · subst hq
        by_cases hmem : ns.contains n <;> simp [hmem]
      · have h1 : (q == n) = false := by simp [Ne.symm hq]
        have h2 : (n == q) = false := by simp [hq]
        by_cases hmem : ns.contains q <;> simp [hmem, h1, h2]

/-- A nested fold over types and their names is the fold over the flattened
name list. -/
theorem foldl_nested_eq_flat {α β : Type} (ts : List β)
    (names : β → List String) (g : α → String → α) (a : α) :
    ts.foldl (fun m t => (names t).foldl g m) a = (ts.flatMap names).foldl g a := by
  induction ts generalizing a with
  | nil => simp
  | cons t ts ih => simp [List.flatMap_cons, List.foldl_append, ih]

/-- Folding inserts over keyed items: a key absent from the items leaves the
lookup unchanged. -/
theorem lookupMap_foldl_insert_of_forall_ne {β γ : Type} (l : List γ)
    (key : γ → String) (f : γ → β) (acc : List (String × β)) (q : String)
    (h : ∀ x ∈ l, key x ≠ q) :
    lookupMap (l.foldl (fun m x => mapInsert m (key x) (f x)) acc) q =
      lookupMap acc q := by
  induction l generalizing acc with
  | nil => simp
  | cons x xs ih =>
      have hx : key x ≠ q := h x (List.mem_cons_self x xs)
      have hxs : ∀ y ∈ xs, key y ≠ q := fun y hy => h y (List.mem_cons_of_mem _ hy)
      simp only [List.foldl_cons, ih _ hxs, lookupMap_mapInsert]
      simp [hx]

/-- Folding inserts over keyed items with pairwise distinct keys: each item is
found at its key. -/
theorem lookupMap_foldl_insert_nodup {β γ : Type} (l : List γ)
    (key : γ → String) (f : γ → β) (acc : List (String × β)) (x : γ)
    (hnd : (l.map key).Nodup) (hx : x ∈ l) :
    lookupMap (l.foldl (fun m y => mapInsert m (key y) (f y)) acc) (key x) =
      some (f x) := by
  induction l generalizing acc with
  | nil => simp at hx
  | cons y ys ih =>
      rcases List.mem_cons.mp hx with h | h
      · subst h
        have hne : ∀ z ∈ ys, key z ≠ key x := by
          intro z hz
          have := (List.nodup_cons.mp hnd).1
          intro hkey
          exact this (hkey ▸ List.mem_map_of_mem key hz)
        simp only [List.foldl_cons]
        rw [lookupMap_foldl_insert_of_forall_ne ys key f _ _ hne,
          lookupMap_mapInsert]
        simp
      · exact ih _ (List.nodup_cons.mp hnd).2 h

/-- Folding inserts over keyed items: a key among the items makes the lookup
defined. -/
theorem lookupMap_foldl_insert_isSome {β γ : Type} (l : List γ)
    (key : γ → String) (f : γ → β) (acc : List (String × β)) (q : String)
    (h : q ∈ l.map key ∨ (lookupMap acc q).isSome) :
    (lookupMap (l.foldl (fun m y => mapInsert m (key y) (f y)) acc) q).isSome := by
  induction l generalizing acc with
  | nil =>
      rcases h with h | h
      · simp at h
      · simpa using h
  | cons y ys ih =>
      simp only [List.foldl_cons]
      rcases h with h | h
      · rcases List.mem_cons.mp h with h' | h'
        · refine ih _ (Or.inr ?_)
          rw [lookupMap_mapInsert]
          simp [h']
        · exact ih _ (Or.inl h')
      · refine ih _ (Or.inr ?_)
        rw [lookupMap_mapInsert]
        by_cases hk : key y == q <;> simp [hk, h]

/-- Membership in a fold of keyed inserts comes from an item or from the
initial map. -/
theorem mem_foldl_insert {β γ : Type} (l : List γ) (key : γ → String)
    (f : γ → β) (acc : List (String × β)) (q : String × β)
    (h : q ∈ l.foldl (fun m y => mapInsert m (key y) (f y)) acc) :
    (∃ x ∈ l, q = (key x, f x)) ∨ q ∈ acc := by
  induction l generalizing acc with
  | nil => exact Or.inr h
  | cons y ys ih =>
      simp only [List.foldl_cons] at h
      rcases ih _ h with ⟨x, hx, hq⟩ | h'
      · exact Or.inl ⟨x, List.mem_cons_of_mem _ hx, hq⟩
      · rcases mem_mapInsert _ _ _ _ h' with hq | hq
        · exact Or.inl ⟨y, List.mem_cons_self y ys, hq⟩
        · exact Or.inr hq

theorem mem_dedupFirstGo (x : String) (seen l : List String) :
    x ∈ dedupFirstGo seen l ↔ x ∈ l ∧ x ∉ seen := by
  induction l generalizing seen with
  | nil => simp [dedupFirstGo]
  | cons y ys ih =>
      by_cases hy : seen.contains y
      · rw [dedupFirstGo, if_pos hy, ih]
        constructor
        · rintro ⟨h1, h2⟩
          exact ⟨List.mem_cons_of_mem _ h1, h2⟩
        · rintro ⟨h1, h2⟩
          rcases List.mem_cons.mp h1 with h | h
          · subst h
            exact absurd (by simpa using hy) h2
          · exact ⟨h, h2⟩
      · rw [dedupFirstGo, if_neg hy]
        constructor
        · intro h
          rcases List.mem_cons.mp h with h | h
          · subst h
            exact ⟨List.mem_cons_self _ _, by simpa using hy⟩
          · rw [ih] at h
            refine ⟨List.mem_cons_of_mem _ h.1, ?_⟩
            have := h.2
            simp at this
            exact this.2
        · rintro ⟨h1, h2⟩
          rcases List.mem_cons.mp h1 with h | h
          · subst h
            exact List.mem_cons_self _ _
          · by_cases hxy : x = y
            · subst hxy
              exact List.mem_cons_self _ _
            · refine List.mem_cons_of_mem _ ((ih _).mpr ⟨h, ?_⟩)
              simp [hxy, h2]

theorem mem_dedupFirst (x : String) (l : List String) :
    x ∈ dedupFirst l ↔ x ∈ l := by
  rw [dedupFirst, mem_dedupFirstGo]
  simp

/-- Deduplication does not change `any`. -/
theorem any_dedupFirst (l : List String) (p : String → Bool) :
    (dedupFirst l).any p = l.any p := by
  by_cases h : l.any p
  · rw [h]
    rw [List.any_eq_true] at h ⊢
    obtain ⟨x, hx, hp⟩ := h
    exact ⟨x, (mem_dedupFirst x l).mpr hx, hp⟩
  · have h' : ¬ (dedupFirst l).any p = true := by
      rw [List.any_eq_true] at h ⊢
      rintro ⟨x, hx, hp⟩
      exact h ⟨x, (mem_dedupFirst x l).mp hx, hp⟩
    simp only [Bool.not_eq_true] at h h'
    rw [h, h']

theorem any_flatMap {γ : Type} (l : List γ) (g : γ → List String)
    (p : String → Bool) :
    (l.flatMap g).any p = l.any (fun x => (g x).any p) := by
  induction l with
  | nil => simp
  | cons x xs ih => simp [List.flatMap_cons, List.any_append, ih]

theorem any_filter_ops {γ : Type} (l : List γ) (sel : γ → Bool)
    (p : γ → Bool) :
    (l.filter sel).any p = l.any (fun x => sel x && p x) := by
  induction l with
  | nil => simp
  | cons x xs ih =>
      by_cases hs : sel x
      · simp [List.filter_cons, hs, List.any_cons, ih]
      · simp [List.filter_cons, hs, List.any_cons, ih]

theorem channelMessages_cond_or_eq_all (ops : List OperationMeta) (c : String) :
    ((ops.filter (fun op => op.channel == c)).isEmpty ||
        (ops.filter (fun op => op.channel == c)).all (fun op => op.messages.isEmpty))
      = (ops.filter (fun op => op.channel == c)).all (fun op => op.messages.isEmpty) := by
  cases hfe : ops.filter (fun op => op.channel == c) with
  | nil => simp
  | cons a l => simp

theorem channelMessages_union_cond (ops : List OperationMeta)
    (env : String → TypeInfo) (c q : String) :
    ((dedupFirst ((ops.filter (fun op => op.channel == c)).flatMap
        (fun op => op.messages))).flatMap
          (fun t => asyncapi_message_names (env t))).contains q
      = ops.any (fun op => op.channel == c &&
          op.messages.any (fun t => (asyncapi_message_names (env t)).contains q)) := by
  rw [Bool.eq_iff_iff, List.elem_iff, List.any_eq_true]
  constructor
  · intro hq
    obtain ⟨t, ht, hqt⟩ := List.mem_flatMap.mp hq
    rw [mem_dedupFirst] at ht
    obtain ⟨op, hop, htop⟩ := List.mem_flatMap.mp ht
    obtain ⟨hopmem, hch⟩ := List.mem_filter.mp hop
    refine ⟨op, hopmem, ?_⟩
    rw [Bool.and_eq_true]
    refine ⟨hch, ?_⟩
    rw [List.any_eq_true]
    exact ⟨t, htop, List.elem_iff.mpr hqt⟩
  · rintro ⟨op, hop, hb⟩
    rw [Bool.and_eq_true] at hb
    obtain ⟨hch, hmsg⟩ := hb
    rw [List.any_eq_true] at hmsg
    obtain ⟨t, htop, hqt⟩ := hmsg
    refine List.mem_flatMap.mpr ⟨t, ?_, List.elem_iff.mp hqt⟩
    rw [mem_dedupFirst]
    exact List.mem_flatMap.mpr ⟨op, List.mem_filter.mpr ⟨hop, hch⟩, htop⟩

/-- C1 (amended): a channel's `messages` map, read through its lookup
function (the underlying `HashMap` is unordered), binds exactly those message
names contributed by some operation of the channel through one of its listed
message types, each to the component reference built from the name; the field
is `None` precisely when every operation of the channel lists no message type
(even when the listed types contribute no names, so that the union is empty
while the field is a present, empty map). -/
theorem channel_messages_spec (ops : List OperationMeta) (env : String → TypeInfo)
    (c : String) :
    (channelMessages ops env c = none ↔
      ∀ op ∈ ops, op.channel = c → op.messages = [])
    ∧ (∀ m, channelMessages ops env c = some m → ∀ q,
        lookupMap m q =
          if ops.any (fun op => op.channel == c &&
              op.messages.any (fun t => (asyncapi_message_names (env t)).contains q)) then
            some (MessageRef.reference ("#/components/messages/" ++ q))
          else none) := by
  constructor
  · simp only [channelMessages, channelMessages_cond_or_eq_all]
    by_cases hc : (ops.filter (fun op => op.channel == c)).all
        (fun op => op.messages.isEmpty)
    · simp only [hc, if_pos]
      simp only [true_iff]
      intro op hop hch
      have hmem : op ∈ ops.filter (fun op => op.channel == c) :=
        List.mem_filter.mpr ⟨hop, by simp [hch]⟩
      have := (List.all_eq_true.mp hc) op hmem
      simpa using this
    · simp only [hc, if_neg, Bool.not_eq_true]
      constructor
      · intro h
        exact absurd h (by simp)
      · intro hall
        exfalso
        apply hc
        rw [List.all_eq_true]
        intro op hmem
        obtain ⟨hop, hch⟩ := List.mem_filter.mp hmem
        have := hall op hop (by simpa using hch)
        simp [this]
  · intro m hm q
    simp only [channelMessages, channelMessages_cond_or_eq_all] at hm
    by_cases hc : (ops.filter (fun op => op.channel == c)).all
        (fun op => op.messages.isEmpty)
    · simp [hc] at hm
    · simp only [hc, if_neg, Bool.not_eq_true] at hm
      rw [Option.some_inj] at hm
      subst hm
      rw [foldl_nested_eq_flat, lookupMap_foldl_selfInsert,
        channelMessages_union_cond]
      cases hb : ops.any (fun op => op.channel == c &&
          op.messages.any (fun t => (asyncapi_message_names (env t)).contains q)) <;>
        simp [lookupMap]

/-- Message metadata carrying only a name, all optional fields absent. -/
def plainMeta (n : String) : MessageMeta :=
  { name := n, summary := none, description := none, title := none,
    content_type := none, triggers_binary := false }

/-- A registry entry with no messages at all (a `ToAsyncApiMessage` enum with
zero variants generates an empty name list, lib.rs lines 230-254). -/
def emptyTypeInfo : TypeInfo :=
  { metas := [], schema_json := Json.null }

def c1ops : List OperationMeta :=
  [{ name := "op1", action := "send", channel := "chat", description := none,
     messages := ["EmptyMsg"] }]

def c1env : String → TypeInfo := fun _ => emptyTypeInfo

/-- C1 counterexample: operation `op1` on channel `chat` lists the message
type `EmptyMsg`, whose name list is empty, so the union of contributed
message references is empty; the claim says the channel's `messages` field
must then be absent, but the code produces a present, empty map. -/
theorem channel_messages_empty_union_cex :
    asyncapi_message_names (c1env "EmptyMsg") = [] ∧
    channelMessages c1ops c1env "chat" = some [] ∧
    channelMessages c1ops c1env "chat" ≠ none := by
  refine ⟨rfl, rfl, ?_⟩
  intro h
  rw [show channelMessages c1ops c1env "chat" = some [] from rfl] at h
  exact Option.noConfusion h

def w1ops : List OperationMeta :=
  [{ name := "sendMessage", action := "send", channel := "chat",
     description := none, messages := ["ChatMessage"] },
   { name := "receiveMessage", action := "receive", channel := "chat",
     description := none, messages := ["ChatMessage", "SystemMessage"] }]

def w1env : String → TypeInfo := fun t =>
  if t == "ChatMessage" then
    { metas := [plainMeta "join", plainMeta "leave"], schema_json := Json.null }
  else if t == "SystemMessage" then
    { metas := [plainMeta "sys"], schema_json := Json.null }
  else emptyTypeInfo

def w1map : List (String × MessageRef) :=
  [("join", MessageRef.reference "#/components/messages/join"),
   ("leave", MessageRef.reference "#/components/messages/leave"),
   ("sys", MessageRef.reference "#/components/messages/sys")]

/-- Witness for C1 at a concrete channel with two operations sharing a
message type. -/
theorem channel_messages_spec_witness :
    lookupMap w1map "join" = some (MessageRef.reference "#/components/messages/join") ∧
    lookupMap w1map "ghost" = none := by
  have h := (channel_messages_spec w1ops w1env "chat").2 w1map rfl
  constructor
  · rw [h "join"]
    rfl
  · rw [h "ghost"]
    rfl

theorem foldl_push_map {β : Type} (ns : List String) (f : String → β)
    (acc : List β) :
    ns.foldl (fun rs n => rs ++ [f n]) acc = acc ++ ns.map f := by
  induction ns generalizing acc with
  | nil => simp
  | cons n ns ih => simp [List.foldl_cons, ih]

theorem foldl_push_flat {β : Type} (ts : List String)
    (names : String → List String) (f : String → β) (acc : List β) :
    ts.foldl (fun rs t => (names t).foldl (fun rs n => rs ++ [f n]) rs) acc =
      acc ++ ts.flatMap (fun t => (names t).map f) := by
  induction ts generalizing acc with
  | nil => simp
  | cons t ts ih =>
      simp only [List.foldl_cons]
      rw [foldl_push_map, ih, List.flatMap_cons, List.append_assoc]

/-- C2: an operation that declares message types gets, as its message list,
exactly one component reference per name of each listed type — types in
declaration order, names in the order the type's `asyncapi_message_names`
returns them. -/
theorem operation_message_refs_spec (messages : List String)
    (env : String → TypeInfo) (h : messages ≠ []) :
    operationMessages messages env =
      some (messages.flatMap (fun t =>
        (asyncapi_message_names (env t)).map
          (fun n => MessageRef.reference ("#/components/messages/" ++ n)))) := by
  rw [operationMessages, if_neg (by simp [h]), foldl_push_flat]
  simp

/-- Witness for C2: two listed types, the first with two names, the second
with one. -/
theorem operation_message_refs_spec_witness :
    operationMessages ["ChatMessage", "SystemMessage"] w1env =
      some [MessageRef.reference "#/components/messages/join",
            MessageRef.reference "#/components/messages/leave",
            MessageRef.reference "#/components/messages/sys"] := by
  rw [operation_message_refs_spec ["ChatMessage", "SystemMessage"] w1env
    (by simp)]
  rfl

theorem lookup_variantFold (variants : List Json) (acc : List (String × Json))
    (q : String) :
    lookupMap (variants.foldl (fun m variant =>
        match discriminatorConst variant with
        | some variantName => mapInsert m variantName variant
        | none => m) acc) q =
      match variants.reverse.find?
          (fun v => discriminatorConst v == some q) with
      | some v => some v
      | none => lookupMap acc q := by
  induction variants generalizing acc with
  | nil => simp
  | cons v vs ih =>
      simp only [List.foldl_cons, List.reverse_cons]
      rw [ih, List.find?_append]
      cases hfind : vs.reverse.find? (fun v => discriminatorConst v == some q) with
      | some w => simp
      | none =>
          simp only [Option.none_or]
          cases hd : discriminatorConst v with
          | none => simp [List.find?_cons, hd]
          | some n =>
              by_cases hn : n = q
              · subst hn
                simp [List.find?_cons, hd, lookupMap_mapInsert]
              · have : ((some n : Option String) == some n) = true := by simp
                simp [List.find?_cons, hd, lookupMap_mapInsert, hn]

theorem variantSchemas_eq_map (sj : Json) :
    variantSchemas sj = (oneOfVariants sj).map variantMapOf := by
  rw [variantSchemas, oneOfVariants]
  cases h : sj.get "oneOf" with
  | none => rfl
  | some x =>
      cases hx : x.asArr with
      | none => simp [Option.bind, hx]
      | some vs => simp [Option.bind, hx]

/-- C3 (amended): with a `oneOf` array present in the serialized schema, a
message's payload is the last branch whose `properties.type.const` string
equals the message name (the unique such branch when discriminator constants
are distinct), and is absent when no branch matches; with no `oneOf` array
the payload is the whole serialized schema, not absent. -/
theorem payload_selection (sj : Json) (msg_name : String) :
    (∀ variants, oneOfVariants sj = some variants →
        msgPayload sj msg_name =
          variants.reverse.find?
            (fun v => discriminatorConst v == some msg_name))
    ∧ (oneOfVariants sj = none → msgPayload sj msg_name = some sj) := by
  constructor
  · intro variants h
    rw [msgPayload, variantSchemas_eq_map, h]
    simp only [Option.map_some']
    rw [variantMapOf, lookup_variantFold]
    cases hfind : variants.reverse.find?
        (fun v => discriminatorConst v == some msg_name) <;> simp [lookupMap]
  · intro h
    rw [msgPayload, variantSchemas_eq_map, h]
    rfl

/-- A schemars-style serialized schema for a C-like enum: no `oneOf` node,
the variants appear only as an `enum` value list. -/
def c3enumSchema : Json :=
  Json.obj [("type", Json.str "string"),
            ("enum", Json.arr [Json.str "join", Json.str "leave"])]

/-- C3 counterexample: a multi-variant message type whose serialized schema
has no disjunction (`oneOf`) node; the claim says every such message's
payload is absent, but the generated code assigns the whole schema as the
payload. -/
theorem payload_no_disjunction_cex :
    oneOfVariants c3enumSchema = none ∧
    msgPayload c3enumSchema "join" = some c3enumSchema ∧
    msgPayload c3enumSchema "join" ≠ none := by
  refine ⟨rfl, rfl, ?_⟩
  intro h
  rw [show msgPayload c3enumSchema "join" = some c3enumSchema from rfl] at h
  exact Option.noConfusion h

/-- One `oneOf` branch with discriminator constant `join`. -/
def c3branchJoin : Json :=
  Json.obj [("type", Json.str "object"),
            ("properties",
              Json.obj [("type", Json.obj [("const", Json.str "join")]),
                        ("room", Json.obj [("type", Json.str "string")])]),
            ("required", Json.arr [Json.str "type", Json.str "room"])]

/-- One `oneOf` branch with discriminator constant `leave`. -/
def c3branchLeave : Json :=
  Json.obj [("type", Json.str "object"),
            ("properties",
              Json.obj [("type", Json.obj [("const", Json.str "leave")])]),
            ("required", Json.arr [Json.str "type"])]

/-- A schemars-style serialized schema for a tagged union with two
variants. -/
def c3oneOfSchema : Json :=
  Json.obj [("oneOf", Json.arr [c3branchJoin, c3branchLeave])]

/-- Witness for C3 at a two-branch tagged union: the matching branch is
selected, a name without a matching branch gets an absent payload. -/
theorem payload_selection_witness :
    msgPayload c3oneOfSchema "leave" = some c3branchLeave ∧
    msgPayload c3oneOfSchema "ghost" = none := by
  constructor
  · rw [(payload_selection c3oneOfSchema "leave").1 [c3branchJoin, c3branchLeave] rfl]
    rfl
  · rw [(payload_selection c3oneOfSchema "ghost").1 [c3branchJoin, c3branchLeave] rfl]
    rfl

/-- C8: content-type resolution precedence — explicit `content_type` wins
over `triggers_binary`, `triggers_binary` selects the binary default,
otherwise the JSON default; every generated message's content type goes
through this resolution. -/
theorem content_type_precedence :
    (∀ ct (b : Bool), resolveContentType (some ct) b = some ct)
    ∧ resolveContentType none true = some "application/octet-stream"
    ∧ resolveContentType none false = some "application/json"
    ∧ ∀ info : TypeInfo, (asyncapi_messages info).map (fun m => m.content_type) =
        info.metas.map (fun m => resolveContentType m.content_type m.triggers_binary) := by
  refine ⟨fun _ _ => rfl, rfl, rfl, fun info => ?_⟩
  rw [asyncapi_messages, List.map_map]
  rfl

/-- C7: an operation assembled without error references its channel as
`#/channels/` followed by the bare channel name from its metadata. -/
theorem operation_channel_reference (op : OperationMeta) (env : String → TypeInfo)
    (o : Operation) (h : assembleOperation op env = .ok o) :
    o.channel.reference = "#/channels/" ++ op.channel := by
  rw [assembleOperation] at h
  by_cases hs : op.action == "send"
  · simp only [hs, if_pos] at h
    simp at h
    rw [← h]
  · by_cases hr : op.action == "receive"
    · simp only [hs, hr] at h
      simp at h
      rw [← h]
    · simp [hs, hr] at h

def w7op : OperationMeta :=
  { name := "sendMessage", action := "send", channel := "chat",
    description := none, messages := ["ChatMessage"] }

def w7operation : Operation :=
  { action := .send, channel := { reference := "#/channels/chat" },
    messages := some [MessageRef.reference "#/components/messages/join",
                      MessageRef.reference "#/components/messages/leave"] }

/-- Witness for C7 at a concrete send operation. -/
theorem operation_channel_reference_witness :
    w7operation.channel.reference = "#/channels/" ++ "chat" :=
  operation_channel_reference w7op w1env w7operation rfl

/-- Validity of an operation's `action` string (lib.rs lines 736-746). -/
def validAction (op : OperationMeta) : Bool :=
  op.action == "send" || op.action == "receive"

/-- The diagnostic emitted for an invalid action (lib.rs lines 741-745). -/
def invalidActionError (op : OperationMeta) : CompileError :=
  { span := op.name,
    message := "Invalid action '" ++ op.action ++ "', must be 'send' or 'receive'" }

/-- The operation value assembled for a valid action. -/
def okOperation (op : OperationMeta) (env : String → TypeInfo) : Operation :=
  { action := if op.action == "send" then .send else .receive,
    channel := { reference := "#/channels/" ++ op.channel },
    messages := operationMessages op.messages env }

/-- All invalid-action diagnostics of an operation list, in order. -/
def errsOf (ops : List OperationMeta) : List CompileError :=
  ops.filterMap (fun op =>
    if validAction op then none else some (invalidActionError op))

/-- The operations map assembled from the valid operations. -/
def validOpsMap (ops : List OperationMeta) (env : String → TypeInfo) :
    List (String × Operation) :=
  (ops.filter validAction).foldl
    (fun m op => mapInsert m op.name (okOperation op env)) []

theorem assembleOperation_valid (op : OperationMeta) (env : String → TypeInfo)
    (h : validAction op = true) :
    assembleOperation op env = .ok (okOperation op env) := by
  rw [validAction, Bool.or_eq_true] at h
  rw [assembleOperation, okOperation]
  rcases h with h | h
  · simp [h]
  · by_cases hs : op.action == "send" <;> simp [hs, h]

theorem assembleOperation_invalid (op : OperationMeta) (env : String → TypeInfo)
    (h : validAction op = false) :
    assembleOperation op env = .error (invalidActionError op) := by
  rw [validAction] at h
  obtain ⟨h1, h2⟩ := Bool.or_eq_false_iff.mp h
  rw [assembleOperation, invalidActionError]
  simp [h1, h2]

theorem assembleOperations_foldl (ops : List OperationMeta)
    (env : String → TypeInfo)
    (acc : List CompileError × List (String × Operation)) :
    ops.foldl
      (fun (acc : List CompileError × List (String × Operation)) op =>
        match assembleOperation op env with
        | .ok o => (acc.1, mapInsert acc.2 op.name o)
        | .error e => (acc.1 ++ [e], acc.2))
      acc =
    (acc.1 ++ errsOf ops,
     (ops.filter validAction).foldl
       (fun m op => mapInsert m op.name (okOperation op env)) acc.2) := by
  induction ops generalizing acc with
  | nil => simp [errsOf]
  | cons op ops ih =>
      cases hv : validAction op
      · simp only [List.foldl_cons, assembleOperation_invalid op env hv, ih,
          errsOf, List.filterMap_cons, List.filter_cons, hv]
        simp
      · simp only [List.foldl_cons, assembleOperation_valid op env hv, ih,
          errsOf, List.filterMap_cons, List.filter_cons, hv]
        simp

theorem assembleOperations_eq (ops : List OperationMeta)
    (env : String → TypeInfo) :
    assembleOperations ops env =
      (errsOf ops, if ops.isEmpty then none else some (validOpsMap ops env)) := by
  rw [assembleOperations]
  by_cases h : ops.isEmpty
  · have : ops = [] := List.isEmpty_iff.mp h
    subst this
    simp [errsOf]
  · simp only [h, if_neg, Bool.not_eq_true]
    rw [assembleOperations_foldl]
    simp [validOpsMap, h]

/-- Inversion of a successful compilation: the metadata had title and
version, no operation diagnostic was emitted, and the document is exactly
the assembled one. -/
theorem derive_ok_inv (symbol : String) (meta : AsyncApiSpecMeta)
    (env : String → TypeInfo) (d : AsyncApiSpec)
    (h : derive_asyncapi symbol meta env = .ok d) :
    ∃ t v, meta.title = some t ∧ meta.version = some v ∧
      errsOf meta.operations = [] ∧
      d = { asyncapi := "3.0.0",
            info := { title := t, version := v, description := meta.description },
            servers := assembleServers meta.servers,
            channels := assembleChannels meta.channels meta.operations env,
            operations :=
              if meta.operations.isEmpty then none
              else some (validOpsMap meta.operations env),
            components := assembleComponents meta.message_types env } := by
  rw [derive_asyncapi] at h
  cases ht : meta.title with
  | none =>
      rw [ht] at h
      exact absurd h (by simp)
  | some t =>
      rw [ht] at h
      cases hv : meta.version with
      | none =>
          rw [hv] at h
          exact absurd h (by simp)
      | some v =>
          rw [hv] at h
          simp only [assembleOperations_eq] at h
          by_cases he : errsOf meta.operations = []
          · rw [he] at h
            simp only [List.isEmpty_nil, if_pos] at h
            refine ⟨t, v, rfl, rfl, he, ?_⟩
            exact (Except.ok.inj h).symm
          · have : (errsOf meta.operations).isEmpty = false := by
              cases herr : errsOf meta.operations with
              | nil => exact absurd herr he
              | cons a l => rfl
            rw [this] at h
            simp at h

/-- C4: a missing `title` or `version` makes compilation fail with a
diagnostic naming the declaring symbol and the missing field before any
document is produced; when both are present, the document's info carries the
supplied values exactly. -/
theorem spec_meta_validation (symbol : String) (meta : AsyncApiSpecMeta)
    (env : String → TypeInfo) :
    (meta.title = none →
      derive_asyncapi symbol meta env =
        .error [{ span := symbol,
                  message := "AsyncApi requires a title attribute: #[asyncapi(title = \"...\")]" }])
    ∧ (∀ t, meta.title = some t → meta.version = none →
      derive_asyncapi symbol meta env =
        .error [{ span := symbol,
                  message := "AsyncApi requires a version attribute: #[asyncapi(version = \"...\")]" }])
    ∧ (∀ t v d, meta.title = some t → meta.version = some v →
        derive_asyncapi symbol meta env = .ok d →
        d.info.title = t ∧ d.info.version = v) := by
  refine ⟨?_, ?_, ?_⟩
  · intro h
    rw [derive_asyncapi, h]
  · intro t ht hv
    rw [derive_asyncapi, ht, hv]
  · intro t v d ht hv h
    obtain ⟨t', v', ht', hv', _, hd⟩ := derive_ok_inv _ _ _ _ h
    rw [ht] at ht'
    rw [hv] at hv'
    obtain rfl : t = t' := Option.some_inj.mp ht'
    obtain rfl : v = v' := Option.some_inj.mp hv'
    rw [hd]
    exact ⟨rfl, rfl⟩

def w4meta : AsyncApiSpecMeta :=
  { title := none, version := some "1.0.0", description := none,
    servers := [], channels := [], operations := [], message_types := [] }

/-- Witness for C4: a metadata record without `title` fails with the
title diagnostic. -/
theorem spec_meta_validation_witness :
    derive_asyncapi "ChatApi" w4meta c1env =
      .error [{ span := "ChatApi",
                message := "AsyncApi requires a title attribute: #[asyncapi(title = \"...\")]" }] :=
  (spec_meta_validation "ChatApi" w4meta c1env).1 rfl

/-- C10: every successfully compiled document carries the constant version
tag `3.0.0`; no metadata input can change it. -/
theorem version_tag_constant (symbol : String) (meta : AsyncApiSpecMeta)
    (env : String → TypeInfo) (d : AsyncApiSpec)
    (h : derive_asyncapi symbol meta env = .ok d) :
    d.asyncapi = "3.0.0" := by
  obtain ⟨t, v, _, _, _, hd⟩ := derive_ok_inv symbol meta env d h
  rw [hd]

def w10meta : AsyncApiSpecMeta :=
  { title := some "Chat API", version := some "1.0.0", description := none,
    servers := [], channels := [], operations := [], message_types := [] }

def w10doc : AsyncApiSpec :=
  { asyncapi := "3.0.0",
    info := { title := "Chat API", version := "1.0.0", description := none },
    servers := none, channels := none, operations := none, components := none }

/-- Witness for C10 at a minimal compiling metadata record. -/
theorem version_tag_constant_witness : w10doc.asyncapi = "3.0.0" :=
  version_tag_constant "ChatApi" w10meta c1env w10doc rfl

/-- C5: with title and version present, every operation whose action string
is neither `send` nor `receive` makes compilation fail, and the collected
diagnostics contain one spanned to that operation's name and quoting the
offending value; with only valid actions the compilation succeeds and each
operation is assembled with the corresponding action variant. -/
theorem action_validation (symbol : String) (meta : AsyncApiSpecMeta)
    (env : String → TypeInfo) (t v : String)
    (ht : meta.title = some t) (hv : meta.version = some v) :
    (∀ op ∈ meta.operations, validAction op = false →
        derive_asyncapi symbol meta env = .error (errsOf meta.operations) ∧
          invalidActionError op ∈ errsOf meta.operations ∧
          (invalidActionError op).span = op.name ∧
          (invalidActionError op).message =
            "Invalid action '" ++ op.action ++ "', must be 'send' or 'receive'")
    ∧ ((∀ op ∈ meta.operations, validAction op = true) →
        ∃ d, derive_asyncapi symbol meta env = .ok d ∧
          ((meta.operations.map (fun op => op.name)).Nodup →
            ∀ op ∈ meta.operations, ∃ o,
              lookupOperations d op.name = some o ∧
              o.action = (if op.action == "send" then OperationAction.send
                          else OperationAction.receive))) := by
  constructor
  · intro op hop hbad
    have hmem : invalidActionError op ∈ errsOf meta.operations :=
      List.mem_filterMap.mpr ⟨op, hop, by simp [hbad]⟩
    have hie : (errsOf meta.operations).isEmpty = false := by
      cases herr : errsOf meta.operations with
      | nil => rw [herr] at hmem; simp at hmem
      | cons a l => rfl
    refine ⟨?_, hmem, rfl, rfl⟩
    rw [derive_asyncapi, ht, hv]
    simp only [assembleOperations_eq, hie]
    rfl
  · intro hall
    have herrs : errsOf meta.operations = [] :=
      List.filterMap_eq_nil_iff.mpr (fun op hop => by simp [hall op hop])
    refine ⟨{ asyncapi := "3.0.0",
              info := { title := t, version := v, description := meta.description },
              servers := assembleServers meta.servers,
              channels := assembleChannels meta.channels meta.operations env,
              operations :=
                if meta.operations.isEmpty then none
                else some (validOpsMap meta.operations env),
              components := assembleComponents meta.message_types env }, ?_, ?_⟩
    · rw [derive_asyncapi, ht, hv]
      simp only [assembleOperations_eq, herrs, List.isEmpty_nil]
      rfl
    · intro hnd op hop
      refine ⟨okOperation op env, ?_, rfl⟩
      have hie : meta.operations.isEmpty = false := by
        cases hmm : meta.operations with
        | nil => rw [hmm] at hop; simp at hop
        | cons a l => rfl
      rw [lookupOperations]
      simp only [hie]
      rw [if_neg (by simp)]
      rw [validOpsMap, List.filter_eq_self.mpr hall]
      exact lookupMap_foldl_insert_nodup meta.operations (fun op => op.name)
        (fun op => okOperation op env) [] op hnd hop

def w5op : OperationMeta :=
  { name := "badOp", action := "broadcast", channel := "chat",
    description := none, messages := [] }

def w5meta : AsyncApiSpecMeta :=
  { title := some "Chat API", version := some "1.0.0", description := none,
    servers := [], channels := [], operations := [w5op], message_types := [] }

/-- Witness for C5: an operation with action `broadcast` fails compilation
with a diagnostic spanned to the operation and quoting the value. -/
theorem action_validation_witness :
    derive_asyncapi "ChatApi" w5meta c1env =
      .error [{ span := "badOp",
                message := "Invalid action 'broadcast', must be 'send' or 'receive'" }] := by
  have h := ((action_validation "ChatApi" w5meta c1env "Chat API" "1.0.0" rfl rfl).1
    w5op (List.mem_cons_self _ _) rfl).1
  rw [h]
  rfl

theorem operationMessages_values (msgs : List String) (env : String → TypeInfo)
    (l : List MessageRef) (h : operationMessages msgs env = some l) :
    ∀ r ∈ l, ∃ n, r = MessageRef.reference ("#/components/messages/" ++ n) := by
  intro r hr
  by_cases hm : msgs.isEmpty
  · rw [operationMessages, if_pos hm] at h
    exact absurd h (by simp)
  · rw [operationMessages, if_neg hm, foldl_push_flat] at h
    rw [Option.some_inj] at h
    subst h
    simp only [List.nil_append] at hr
    obtain ⟨t, _, hrt⟩ := List.mem_flatMap.mp hr
    obtain ⟨n, _, rfl⟩ := List.mem_map.mp hrt
    exact ⟨n, rfl⟩

theorem channelMessages_values (ops : List OperationMeta)
    (env : String → TypeInfo) (c : String) (m : List (String × MessageRef))
    (hm : channelMessages ops env c = some m) :
    ∀ kv ∈ m, ∃ n, kv = (n, MessageRef.reference ("#/components/messages/" ++ n)) := by
  intro kv hkv
  simp only [channelMessages, channelMessages_cond_or_eq_all] at hm
  by_cases hc : (ops.filter (fun op => op.channel == c)).all
      (fun op => op.messages.isEmpty)
  · simp [hc] at hm
  · simp only [hc, if_neg, Bool.not_eq_true] at hm
    rw [Option.some_inj] at hm
    subst hm
    rw [foldl_nested_eq_flat] at hkv
    rcases mem_foldl_insert _ (fun n => n)
        (fun n => MessageRef.reference ("#/components/messages/" ++ n)) [] kv hkv with
      ⟨n, _, rfl⟩ | hkv0
    · exact ⟨n, rfl⟩
    · simp at hkv0

/-- C9 (amended): in every successfully compiled document, each reference
the Assembler emits has the shape `#/channels/` + name or
`#/components/messages/` + name; and provided every operation's channel name
is among the declared channels, each operation's channel reference resolves
to an entry of the channels map (component-message references are exempt
from the existence requirement; without the provision a `#/channels/`
reference can dangle, as the Assembler performs no such check). -/
theorem reference_paths (symbol : String) (meta : AsyncApiSpecMeta)
    (env : String → TypeInfo) (d : AsyncApiSpec)
    (h : derive_asyncapi symbol meta env = .ok d) :
    (∀ r ∈ emittedRefs d,
        (∃ n, r = "#/channels/" ++ n) ∨ (∃ n, r = "#/components/messages/" ++ n))
    ∧ ((∀ op ∈ meta.operations, ∃ ch ∈ meta.channels, ch.name = op.channel) →
        ∀ q o, lookupOperations d q = some o →
          ∃ cname, o.channel.reference = "#/channels/" ++ cname ∧
            (lookupChannels d cname).isSome) := by
  obtain ⟨t, v, ht, hv, herrs, hd⟩ := derive_ok_inv symbol meta env d h
  constructor
  · intro r hr
    rw [hd] at hr
    simp only [emittedRefs] at hr
    rcases List.mem_append.mp hr with hr | hr
    · -- reference inside a channel's messages map
      right
      cases hch : assembleChannels meta.channels meta.operations env with
      | none => rw [hch] at hr; simp at hr
      | some chm =>
          rw [hch] at hr
          obtain ⟨kv, hkv, hrkv⟩ := List.mem_flatMap.mp hr
          rw [assembleChannels] at hch
          by_cases hce : meta.channels.isEmpty
          · rw [if_pos hce] at hch; exact absurd hch (by simp)
          · rw [if_neg hce] at hch
            rw [Option.some_inj] at hch
            subst hch
            rcases mem_foldl_insert _ (fun ch => ch.name)
                (fun ch => mkChannel meta.operations env ch) [] kv hkv with
              ⟨ch, _, rfl⟩ | hkv0
            · simp only [mkChannel] at hrkv
              cases hcm : channelMessages meta.operations env ch.name with
              | none => rw [hcm] at hrkv; simp at hrkv
              | some mm =>
                  rw [hcm] at hrkv
                  obtain ⟨km, hkm, hrkm⟩ := List.mem_flatMap.mp hrkv
                  obtain ⟨n, rfl⟩ :=
                    channelMessages_values meta.operations env ch.name mm hcm km hkm
                  simp only [messageRefStrings] at hrkm
                  rcases List.mem_singleton.mp hrkm with rfl
                  exact ⟨n, rfl⟩
            · simp at hkv0
    · -- reference inside the operations map
      by_cases hoe : meta.operations.isEmpty
      · rw [if_pos hoe] at hr; simp at hr
      · rw [if_neg hoe] at hr
        obtain ⟨ko, hko, hrko⟩ := List.mem_flatMap.mp hr
        rw [validOpsMap] at hko
        rcases mem_foldl_insert _ (fun op => op.name)
            (fun op => okOperation op env) [] ko hko with ⟨op, _, rfl⟩ | hko0
        · rcases List.mem_cons.mp hrko with rfl | hrko
          · exact Or.inl ⟨op.channel, rfl⟩
          · right
            simp only [okOperation] at hrko
            cases hom : operationMessages op.messages env with
            | none => rw [hom] at hrko; simp at hrko
            | some l =>
                rw [hom] at hrko
                obtain ⟨mr, hmr, hrmr⟩ := List.mem_flatMap.mp hrko
                obtain ⟨n, rfl⟩ := operationMessages_values op.messages env l hom mr hmr
                simp only [messageRefStrings] at hrmr
                rcases List.mem_singleton.mp hrmr with rfl
                exact ⟨n, rfl⟩
        · simp at hko0
  · intro hdecl q o hlookup
    rw [hd] at hlookup
    rw [lookupOperations] at hlookup
    by_cases hoe : meta.operations.isEmpty
    · simp [hoe] at hlookup
    · simp only [hoe, Bool.false_eq_true, if_false] at hlookup
      have hmem := lookupMap_mem _ _ _ hlookup
      rw [validOpsMap] at hmem
      rcases mem_foldl_insert _ (fun op => op.name)
          (fun op => okOperation op env) [] (q, o) hmem with ⟨op, hop, heq⟩ | h0
      · obtain ⟨-, rfl⟩ := Prod.mk.injEq .. ▸ And.intro (congrArg Prod.fst heq)
          (congrArg Prod.snd heq)
        refine ⟨op.channel, rfl, ?_⟩
        have hopmem : op ∈ meta.operations := (List.mem_filter.mp hop).1
        obtain ⟨ch, hch, hchname⟩ := hdecl op hopmem
        rw [hd]
        rw [lookupChannels]
        have hce : meta.channels.isEmpty = false := by
          cases hcl : meta.channels with
          | nil => rw [hcl] at hch; simp at hch
          | cons a l => rfl
        simp only [assembleChannels, hce, Bool.false_eq_true, if_false]
        refine lookupMap_foldl_insert_isSome meta.channels (fun ch => ch.name)
          (fun ch => mkChannel meta.operations env ch) [] op.channel (Or.inl ?_)
        rw [← hchname]
        exact List.mem_map_of_mem _ hch
      · simp at h0

def c9meta : AsyncApiSpecMeta :=
  { title := some "T", version := some "V", description := none,
    servers := [], channels := [],
    operations := [{ name := "sendIt", action := "send", channel := "ghost",
                     description := none, messages := [] }],
    message_types := [] }

def c9doc : AsyncApiSpec :=
  { asyncapi := "3.0.0",
    info := { title := "T", version := "V", description := none },
    servers := none, channels := none,
    operations := some [("sendIt",
      { action := .send, channel := { reference := "#/channels/ghost" },
        messages := none })],
    components := none }

/-- C9 counterexample: an operation referencing the undeclared channel
`ghost` compiles successfully, its emitted `#/channels/ghost` reference
points at no entry of the (absent) channels map. -/
theorem dangling_channel_ref_cex :
    derive_asyncapi "Api" c9meta c1env = Except.ok c9doc ∧
    "#/channels/ghost" ∈ emittedRefs c9doc ∧
    c9doc.channels = none ∧
    lookupChannels c9doc "ghost" = none := by
  refine ⟨rfl, ?_, rfl, rfl⟩
  exact List.mem_singleton.mpr rfl

def w9channel : ChannelMeta :=
  { name := "chat", address := none, description := none, parameters := [] }

def w9meta : AsyncApiSpecMeta :=
  { title := some "T", version := some "V", description := none,
    servers := [], channels := [w9channel],
    operations := [{ name := "send1", action := "send", channel := "chat",
                     description := none, messages := [] }],
    message_types := [] }

def w9operation : Operation :=
  { action := .send, channel := { reference := "#/channels/chat" },
    messages := none }

def w9doc : AsyncApiSpec :=
  { asyncapi := "3.0.0",
    info := { title := "T", version := "V", description := none },
    servers := none,
    channels := some [("chat",
      { address := none, messages := none, parameters := none })],
    operations := some [("send1", w9operation)],
    components := none }

/-- Witness for C9 at a document whose single operation references the
declared channel `chat`. -/
theorem reference_paths_witness :
    ∃ cname, w9operation.channel.reference = "#/channels/" ++ cname ∧
      (lookupChannels w9doc cname).isSome :=
  (reference_paths "Api" w9meta c1env w9doc rfl).2
    (fun op hop =>
      ⟨w9channel, List.mem_cons_self _ _, by
        rcases List.mem_singleton.mp hop with rfl; rfl⟩)
    "send1" w9operation rfl

/-- The attribute's argument list contains a `key = "value"` string field for
the given key. -/
def HasStrField (fields : List AttrField) (key : String) : Prop :=
  ∃ v, AttrField.strField key v ∈ fields

/-- A state projection that a step function only ever sets from a string
field of its key is defined after the fold exactly when it was defined
before or such a field occurs. -/
theorem foldl_step_isSome {σ : Type} (step : σ → AttrField → σ)
    (proj : σ → Option String) (key : String)
    (hset : ∀ s v, proj (step s (.strField key v)) = some v)
    (hcases : ∀ s f, proj (step s f) = proj s ∨ ∃ v, f = .strField key v)
    (fields : List AttrField) :
    ∀ s : σ, (proj (fields.foldl step s)).isSome ↔
      (proj s).isSome ∨ HasStrField fields key := by
  induction fields with
  | nil => intro s; simp [HasStrField]
  | cons f fs ih =>
      intro s
      rw [List.foldl_cons, ih]
      by_cases hf : ∃ v, f = AttrField.strField key v
      · obtain ⟨v, rfl⟩ := hf
        rw [hset]
        constructor
        · intro _; exact Or.inr ⟨v, List.mem_cons_self _ _⟩
        · intro _; simp
      · have hunch : proj (step s f) = proj s := by
          rcases hcases s f with h | h
          · exact h
          · exact absurd h hf
        rw [hunch]
        constructor
        · rintro (h | ⟨v, hvmem⟩)
          · exact Or.inl h
          · exact Or.inr ⟨v, List.mem_cons_of_mem _ hvmem⟩
        · rintro (h | ⟨v, hvmem⟩)
          · exact Or.inl h
          · rcases List.mem_cons.mp hvmem with heq | hmem
            · exact absurd ⟨v, heq.symm⟩ hf
            · exact Or.inr ⟨v, hmem⟩

theorem serverStep_name (s : ServerState) (f : AttrField) :
    (serverStep s f).name = s.name ∨ ∃ v, f = .strField "name" v := by
  cases f with
  | strField k v =>
      by_cases hk : k = "name"
      · subst hk; exact Or.inr ⟨v, rfl⟩
      · left
        simp only [serverStep]
        split_ifs with h1 h2 h3 h4 h5 <;> simp_all
  | nested k fs =>
      left
      simp only [serverStep]
      split_ifs with h
      · cases extract_server_variable fs <;> rfl
      · rfl
  | listField k vs => exact Or.inl rfl
  | flag k => exact Or.inl rfl

theorem serverStep_host (s : ServerState) (f : AttrField) :
    (serverStep s f).host = s.host ∨ ∃ v, f = .strField "host" v := by
  cases f with
  | strField k v =>
      by_cases hk : k = "host"
      · subst hk; exact Or.inr ⟨v, rfl⟩
      · left
        simp only [serverStep]
        split_ifs with h1 h2 h3 h4 h5 <;> simp_all
  | nested k fs =>
      left
      simp only [serverStep]
      split_ifs with h
      · cases extract_server_variable fs <;> rfl
      · rfl
  | listField k vs => exact Or.inl rfl
  | flag k => exact Or.inl rfl

theorem serverStep_protocol (s : ServerState) (f : AttrField) :
    (serverStep s f).protocol = s.protocol ∨ ∃ v, f = .strField "protocol" v := by
  cases f with
  | strField k v =>
      by_cases hk : k = "protocol"
      · subst hk; exact Or.inr ⟨v, rfl⟩
      · left
        simp only [serverStep]
        split_ifs with h1 h2 h3 h4 h5 <;> simp_all
  | nested k fs =>
      left
      simp only [serverStep]
      split_ifs with h
      · cases extract_server_variable fs <;> rfl
      · rfl
  | listField k vs => exact Or.inl rfl
  | flag k => exact Or.inl rfl

theorem channelStep_name (s : ChannelState) (f : AttrField) :
    (channelStep s f).name = s.name ∨ ∃ v, f = .strField "name" v := by
  cases f with
  | strField k v =>
      by_cases hk : k = "name"
      · subst hk; exact Or.inr ⟨v, rfl⟩
      · left
        simp only [channelStep]
        split_ifs with h1 h2 h3 <;> simp_all
  | nested k fs =>
      left
      simp only [channelStep]
      split_ifs with h
      · cases extract_channel_parameter fs <;> rfl
      · rfl
  | listField k vs => exact Or.inl rfl
  | flag k => exact Or.inl rfl

theorem operationStep_name (s : OperationState) (f : AttrField) :
    (operationStep s f).name = s.name ∨ ∃ v, f = .strField "name" v := by
  cases f with
  | strField k v =>
      by_cases hk : k = "name"
      · subst hk; exact Or.inr ⟨v, rfl⟩
      · left
        simp only [operationStep]
        split_ifs with h1 h2 h3 h4 <;> simp_all
  | nested k fs => exact Or.inl rfl
  | listField k vs => exact Or.inl rfl
  | flag k => exact Or.inl rfl

theorem operationStep_action (s : OperationState) (f : AttrField) :
    (operationStep s f).action = s.action ∨ ∃ v, f = .strField "action" v := by
  cases f with
  | strField k v =>
      by_cases hk : k = "action"
      · subst hk; exact Or.inr ⟨v, rfl⟩
      · left
        simp only [operationStep]
        split_ifs with h1 h2 h3 h4 <;> simp_all
  | nested k fs => exact Or.inl rfl
  | listField k vs => exact Or.inl rfl
  | flag k => exact Or.inl rfl

theorem operationStep_channel (s : OperationState) (f : AttrField) :
    (operationStep s f).channel = s.channel ∨ ∃ v, f = .strField "channel" v := by
  cases f with
  | strField k v =>
      by_cases hk : k = "channel"
      · subst hk; exact Or.inr ⟨v, rfl⟩
      · left
        simp only [operationStep]
        split_ifs with h1 h2 h3 h4 <;> simp_all
  | nested k fs => exact Or.inl rfl
  | listField k vs => exact Or.inl rfl
  | flag k => exact Or.inl rfl

theorem serverVariableStep_name (s : VarState) (f : AttrField) :
    (serverVariableStep s f).name = s.name ∨ ∃ v, f = .strField "name" v := by
  cases f with
  | strField k v =>
      by_cases hk : k = "name"
      · subst hk; exact Or.inr ⟨v, rfl⟩
      · left
        simp only [serverVariableStep]
        split_ifs with h1 h2 h3 <;> simp_all
  | listField k vs =>
      left
      simp only [serverVariableStep]
      split_ifs with h1 h2 <;> rfl
  | nested k fs => exact Or.inl rfl
  | flag k => exact Or.inl rfl

theorem channelParameterStep_name (s : ParamState) (f : AttrField) :
    (channelParameterStep s f).name = s.name ∨ ∃ v, f = .strField "name" v := by
  cases f with
  | strField k v =>
      by_cases hk : k = "name"
      · subst hk; exact Or.inr ⟨v, rfl⟩
      · left
        simp only [channelParameterStep]
        split_ifs with h1 h2 h3 h4 <;> simp_all
  | nested k fs => exact Or.inl rfl
  | listField k vs => exact Or.inl rfl
  | flag k => exact Or.inl rfl

theorem extract_server_isSome (fields : List AttrField) :
    (extract_server fields).isSome ↔
      HasStrField fields "name" ∧ HasStrField fields "host" ∧
        HasStrField fields "protocol" := by
  have hn := foldl_step_isSome serverStep (fun s => s.name) "name"
    (fun s v => by simp [serverStep]) serverStep_name fields {}
  have hh := foldl_step_isSome serverStep (fun s => s.host) "host"
    (fun s v => by simp [serverStep]) serverStep_host fields {}
  have hp := foldl_step_isSome serverStep (fun s => s.protocol) "protocol"
    (fun s v => by simp [serverStep]) serverStep_protocol fields {}
  simp only [Option.isSome_none, Bool.false_eq_true, false_or] at hn hh hp
  rcases h1 : (List.foldl serverStep {} fields).name with _ | n <;>
    rcases h2 : (List.foldl serverStep {} fields).host with _ | hs <;>
      rcases h3 : (List.foldl serverStep {} fields).protocol with _ | p <;>
        simp [extract_server, h1, h2, h3, ← hn, ← hh, ← hp]

theorem extract_channel_isSome (fields : List AttrField) :
    (extract_channel fields).isSome ↔ HasStrField fields "name" := by
  have hn := foldl_step_isSome channelStep (fun s => s.name) "name"
    (fun s v => by simp [channelStep]) channelStep_name fields {}
  simp only [Option.isSome_none, Bool.false_eq_true, false_or] at hn
  rcases h1 : (List.foldl channelStep {} fields).name with _ | n <;>
    simp [extract_channel, h1, ← hn]

theorem extract_operation_isSome (fields : List AttrField) :
    (extract_operation fields).isSome ↔
      HasStrField fields "name" ∧ HasStrField fields "action" ∧
        HasStrField fields "channel" := by
  have hn := foldl_step_isSome operationStep (fun s => s.name) "name"
    (fun s v => by simp [operationStep]) operationStep_name fields {}
  have ha := foldl_step_isSome operationStep (fun s => s.action) "action"
    (fun s v => by simp [operationStep]) operationStep_action fields {}
  have hc := foldl_step_isSome operationStep (fun s => s.channel) "channel"
    (fun s v => by simp [operationStep]) operationStep_channel fields {}
  simp only [Option.isSome_none, Bool.false_eq_true, false_or] at hn ha hc
  rcases h1 : (List.foldl operationStep {} fields).name with _ | n <;>
    rcases h2 : (List.foldl operationStep {} fields).action with _ | a <;>
      rcases h3 : (List.foldl operationStep {} fields).channel with _ | c <;>
        simp [extract_operation, h1, h2, h3, ← hn, ← ha, ← hc]

theorem extract_server_variable_isSome (fields : List AttrField) :
    (extract_server_variable fields).isSome ↔ HasStrField fields "name" := by
  have hn := foldl_step_isSome serverVariableStep (fun s => s.name) "name"
    (fun s v => by simp [serverVariableStep]) serverVariableStep_name fields {}
  simp only [Option.isSome_none, Bool.false_eq_true, false_or] at hn
  rcases h1 : (List.foldl serverVariableStep {} fields).name with _ | n <;>
    simp [extract_server_variable, h1, ← hn]

theorem extract_channel_parameter_isSome (fields : List AttrField) :
    (extract_channel_parameter fields).isSome ↔ HasStrField fields "name" := by
  have hn := foldl_step_isSome channelParameterStep (fun s => s.name) "name"
    (fun s v => by simp [channelParameterStep]) channelParameterStep_name fields {}
  simp only [Option.isSome_none, Bool.false_eq_true, false_or] at hn
  rcases h1 : (List.foldl channelParameterStep {} fields).name with _ | n <;>
    simp [extract_channel_parameter, h1, ← hn]

/-- C6 (amended): the Metadata Extractor itself enforces the required fields
of every block, top-level and nested alike: a server block yields a record
exactly when `name`, `host` and `protocol` are present, a channel block
exactly when `name` is present, an operation block exactly when `name`,
`action` and `channel` are present, and a nested variable or parameter block
exactly when its `name` is present; a block missing one of these is dropped,
not forwarded with the field unset (only spec-level `title`/`version`
validation is left to the Assembler). -/
theorem extractor_required_fields (fields : List AttrField) :
    ((extract_server fields).isSome ↔
      HasStrField fields "name" ∧ HasStrField fields "host" ∧
        HasStrField fields "protocol")
    ∧ ((extract_channel fields).isSome ↔ HasStrField fields "name")
    ∧ ((extract_operation fields).isSome ↔
      HasStrField fields "name" ∧ HasStrField fields "action" ∧
        HasStrField fields "channel")
    ∧ ((extract_server_variable fields).isSome ↔ HasStrField fields "name")
    ∧ ((extract_channel_parameter fields).isSome ↔ HasStrField fields "name") :=
  ⟨extract_server_isSome fields, extract_channel_isSome fields,
   extract_operation_isSome fields, extract_server_variable_isSome fields,
   extract_channel_parameter_isSome fields⟩

def c6serverFields : List AttrField :=
  [.strField "name" "production", .strField "protocol" "wss"]

/-- C6 counterexample: a top-level server block missing `host` (a field the
Assembler's `Server` record requires) is dropped by the Extractor — no
record with the field unset reaches the Assembler, and the extracted spec
metadata contains no server at all. -/
theorem extract_server_missing_host_cex :
    extract_server c6serverFields = none ∧
    (extract_asyncapi_spec_meta [.asyncapi_server c6serverFields]).servers = [] :=
  ⟨rfl, rfl⟩
